import Mathlib

/-!
Verification of the rustmap-db append-only log store.

This file embeds the record codec (src/src/db/db_entry.rs), the replay
engine and write pipeline of the map and set collections
(src/src/structures/hashmap.rs, src/src/structures/hashset.rs), the
selective clear scan-filter, and the collection-id derivation
(src/src/db/mod.rs), and proves or refutes the specified properties.

Bytes are values of Fin 256; byte strings are lists of bytes.  The
bincode codec used by the source (fixed-width little-endian integers,
length-prefixed byte vectors) is embedded concretely.  User keys and
values are treated as opaque serialized byte strings, as the spec's
codec layer prescribes.
-/

namespace RustmapDB

/-- A single byte. -/
abbrev Byte := Fin 256

/-- The byte list type used for collection ids, keys and values. -/
abbrev Bytes := List Byte

/-- Truncate a natural number to one byte. -/
def byteOf (n : Nat) : Byte := ⟨n % 256, Nat.mod_lt n (by omega)⟩

/-- Little-endian fixed 8-byte encoding of a u64 length, as bincode writes it. -/
def le64 (n : Nat) : Bytes :=
  [byteOf n, byteOf (n / 256), byteOf (n / 65536), byteOf (n / 16777216),
   byteOf (n / 4294967296), byteOf (n / 1099511627776),
   byteOf (n / 281474976710656), byteOf (n / 72057594037927936)]

/-- Big-endian 8-byte encoding of a usize, as usize::to_be_bytes produces. -/
def be64 (n : Nat) : Bytes :=
  [byteOf (n / 72057594037927936), byteOf (n / 281474976710656),
   byteOf (n / 1099511627776), byteOf (n / 4294967296),
   byteOf (n / 16777216), byteOf (n / 65536), byteOf (n / 256), byteOf n]

/-- Value of a little-endian byte string (byte i has weight 256^i). -/
def leVal (l : Bytes) : Nat := l.foldr (fun b acc => b.val + 256 * acc) 0

/-- Bincode encoding of a Vec of bytes: 8-byte little-endian length, then the bytes. -/
def encodeBytes (v : Bytes) : Bytes := le64 v.length ++ v

/-- The DBEntry enum of src/src/db/db_entry.rs, with the id, key and value
fields already in serialized byte form (as the source stores them). -/
inductive DBEntry
  | HashMapEntry (id key value : Bytes)
  | RemoveHashMapEntry (id key : Bytes)
  | HashSetEntry (id key : Bytes)
  | RemoveHashSetEntry (id key : Bytes)
deriving DecidableEq

/-- The collection id carried by a record. -/
def DBEntry.idOf : DBEntry → Bytes
  | .HashMapEntry i _ _ => i
  | .RemoveHashMapEntry i _ => i
  | .HashSetEntry i _ => i
  | .RemoveHashSetEntry i _ => i

/-- Serialize impl for DBEntry (src/src/db/db_entry.rs:28-65): a one-byte
tag (0,1,2,3) followed by the length-prefixed fields of the variant. -/
def encodeEntry : DBEntry → Bytes
  | .HashMapEntry i k v => 0 :: (encodeBytes i ++ encodeBytes k ++ encodeBytes v)
  | .RemoveHashMapEntry i k => 1 :: (encodeBytes i ++ encodeBytes k)
  | .HashSetEntry i k => 2 :: (encodeBytes i ++ encodeBytes k)
  | .RemoveHashSetEntry i k => 3 :: (encodeBytes i ++ encodeBytes k)

/-- Decoder outcomes: an end-of-input inside a record (bincode
ErrorKind::Io with UnexpectedEof), or an unknown tag byte (the
de::Error::invalid_value of DBEntryVisitor::visit_seq, not an Io error). -/
inductive DecErr
  | eof
  | badTag (t : Byte)
deriving DecidableEq

/-- Read one length-prefixed byte blob: 8-byte little-endian length then
that many bytes; UnexpectedEof if the input is shorter. -/
def readBlob (bs : Bytes) : Except DecErr (Bytes × Bytes) :=
  if 8 ≤ bs.length then
    if leVal (bs.take 8) ≤ (bs.drop 8).length then
      .ok ((bs.drop 8).take (leVal (bs.take 8)), (bs.drop 8).drop (leVal (bs.take 8)))
    else .error .eof
  else .error .eof

/-- Read two consecutive length-prefixed blobs. -/
def readBlob2 (bs : Bytes) : Except DecErr ((Bytes × Bytes) × Bytes) :=
  match readBlob bs with
  | .error e => .error e
  | .ok (a, r) =>
    match readBlob r with
    | .error e => .error e
    | .ok (b, r2) => .ok ((a, b), r2)

/-- DBEntryVisitor::visit_seq (src/src/db/db_entry.rs:91-143): read the tag
byte, then the variant's fields; any tag outside 0..3 is a decode error. -/
def decodeEntry (bs : Bytes) : Except DecErr (DBEntry × Bytes) :=
  match bs with
  | [] => .error .eof
  | t :: rest =>
    if t = 0 then
      match readBlob2 rest with
      | .error e => .error e
      | .ok ((i, k), r2) =>
        match readBlob r2 with
        | .error e => .error e
        | .ok (v, r3) => .ok (.HashMapEntry i k v, r3)
    else if t = 1 then
      match readBlob2 rest with
      | .error e => .error e
      | .ok ((i, k), r2) => .ok (.RemoveHashMapEntry i k, r2)
    else if t = 2 then
      match readBlob2 rest with
      | .error e => .error e
      | .ok ((i, k), r2) => .ok (.HashSetEntry i k, r2)
    else if t = 3 then
      match readBlob2 rest with
      | .error e => .error e
      | .ok ((i, k), r2) => .ok (.RemoveHashSetEntry i k, r2)
    else .error (.badTag t)

/-- Field lengths representable as u64, as they always are in the source. -/
def wfEntry : DBEntry → Prop
  | .HashMapEntry i k v =>
      i.length < 18446744073709551616 ∧ k.length < 18446744073709551616 ∧
      v.length < 18446744073709551616
  | .RemoveHashMapEntry i k =>
      i.length < 18446744073709551616 ∧ k.length < 18446744073709551616
  | .HashSetEntry i k =>
      i.length < 18446744073709551616 ∧ k.length < 18446744073709551616
  | .RemoveHashSetEntry i k =>
      i.length < 18446744073709551616 ∧ k.length < 18446744073709551616

instance (e : DBEntry) : Decidable (wfEntry e) :=
  match e with
  | .HashMapEntry _ _ _ => inferInstanceAs (Decidable (_ ∧ _ ∧ _))
  | .RemoveHashMapEntry _ _ => inferInstanceAs (Decidable (_ ∧ _))
  | .HashSetEntry _ _ => inferInstanceAs (Decidable (_ ∧ _))
  | .RemoveHashSetEntry _ _ => inferInstanceAs (Decidable (_ ∧ _))

/-- In-memory index of a map collection, observed as key-bytes to value-bytes. -/
def MapIndex := Bytes → Option Bytes

/-- In-memory index of a set collection, observed as key-bytes membership. -/
def SetIndex := Bytes → Bool

/-- The empty map index. -/
def emptyMap : MapIndex := fun _ => none

/-- The empty set index. -/
def emptySet : SetIndex := fun _ => false

/-- DashMap::insert, observable effect. -/
def mapInsertIdx (st : MapIndex) (k v : Bytes) : MapIndex :=
  fun k2 => if k2 = k then some v else st k2

/-- DashMap::remove, observable effect. -/
def mapRemoveIdx (st : MapIndex) (k : Bytes) : MapIndex :=
  fun k2 => if k2 = k then none else st k2

/-- DashSet::insert, observable effect. -/
def setInsertIdx (st : SetIndex) (k : Bytes) : SetIndex :=
  fun k2 => if k2 = k then true else st k2

/-- DashSet::remove, observable effect. -/
def setRemoveIdx (st : SetIndex) (k : Bytes) : SetIndex :=
  fun k2 => if k2 = k then false else st k2

/-- Replay step of HashMap::load_from_file (src/src/structures/hashmap.rs:83-98):
map records with matching id insert or delete, everything else is skipped. -/
def applyMapRecord (id : Bytes) (st : MapIndex) : DBEntry → MapIndex
  | .HashMapEntry i k v => if i = id then mapInsertIdx st k v else st
  | .RemoveHashMapEntry i k => if i = id then mapRemoveIdx st k else st
  | _ => st

/-- Replay step of HashSet::load_from_file (src/src/structures/hashset.rs:83-97):
set records with matching id insert or delete, everything else is skipped. -/
def applySetRecord (id : Bytes) (st : SetIndex) : DBEntry → SetIndex
  | .HashSetEntry i k => if i = id then setInsertIdx st k else st
  | .RemoveHashSetEntry i k => if i = id then setRemoveIdx st k else st
  | _ => st

/-- Replay loop shared by HashMap::load_from_file
(src/src/structures/hashmap.rs:81-110) and HashSet::load_from_file
(src/src/structures/hashset.rs:81-109), fuelled by the cursor's remaining
length (each decode consumes at least the tag byte): stop successfully at end
of buffer or on a mid-record UnexpectedEof, fail on any other decode error. -/
def replayLoop {α : Type} (apply : α → DBEntry → α) : Nat → α → Bytes → Except DecErr α
  | 0, st, _ => .ok st
  | fuel + 1, st, bs =>
    if bs = [] then .ok st
    else
      match decodeEntry bs with
      | .ok (e, rest) => replayLoop apply fuel (apply st e) rest
      | .error .eof => .ok st
      | .error (.badTag t) => .error (.badTag t)

/-- Replay a whole byte log from offset 0. -/
def loadBytes {α : Type} (apply : α → DBEntry → α) (st : α) (bs : Bytes) : Except DecErr α :=
  replayLoop apply bs.length st bs

namespace HashMap

/-- HashMap::load_from_file on the full file contents. -/
def load_from_file (id : Bytes) (st : MapIndex) (bs : Bytes) : Except DecErr MapIndex :=
  loadBytes (applyMapRecord id) st bs

end HashMap

namespace HashSet

/-- HashSet::load_from_file on the full file contents. -/
def load_from_file (id : Bytes) (st : SetIndex) (bs : Bytes) : Except DecErr SetIndex :=
  loadBytes (applySetRecord id) st bs

/-- Membership of a key after replaying a byte log into an empty set handle;
false when the open fails. -/
def replayContains (id : Bytes) (bs : Bytes) (k : Bytes) : Bool :=
  match load_from_file id emptySet bs with
  | .ok st => st k
  | .error _ => false

end HashSet

/-- The log file, observed as its byte contents plus a count of flushes. -/
structure FileState where
  bytes : Bytes
  flushes : Nat
deriving DecidableEq

/-- Modelled from the spec: the generic serialize_to_file helper that
hashmap.rs and hashset.rs call is not under src/ (src/src/structures/mod.rs:264-271
holds an older variant taking pre-serialized bytes).  Per the spec's write
pipeline (section 4.5) and log format (section 6), one durability task, under a
single acquisition of the file lock, seeks to end-of-file, appends the bincode
encoding of each given record contiguously with no extra framing, and flushes
once. -/
def serialize_to_file (recs : List DBEntry) (f : FileState) : FileState :=
  { bytes := f.bytes ++ (recs.map encodeEntry).flatten, flushes := f.flushes + 1 }

/-- to_raw_id (src/src/db/mod.rs:164-169): 8-byte big-endian length of the
name's bytes, then the name's bytes. -/
def to_raw_id (id : Bytes) : Bytes := be64 id.length ++ id

/-- Collection id stored by a handle from Database::hash_map:  HashMap::new
(src/src/structures/hashmap.rs:50) re-serializes the raw id with bincode,
adding a little-endian length prefix. -/
def hash_map_id (name : Bytes) : Bytes := encodeBytes (to_raw_id name)

/-- Collection id stored by a handle from Database::hash_map_with_config:
HashMap::with_config (src/src/structures/hashmap.rs:57-69) stores the raw id. -/
def hash_map_with_config_id (name : Bytes) : Bytes := to_raw_id name

namespace HashMap

/-- HashMap::insert (src/src/structures/hashmap.rs:128-138): returns the old
value, the updated index, and the awaited durability task's records. -/
def insert (id : Bytes) (st : MapIndex) (k v : Bytes) :
    Option Bytes × MapIndex × List DBEntry :=
  (st k, mapInsertIdx st k v, [DBEntry.HashMapEntry id k v])

/-- In-memory phase of HashMap::insert_batch: collected old values and
the updated index, in input order. -/
def insertBatchLoop (st : MapIndex) : List (Bytes × Bytes) → List (Option Bytes) × MapIndex
  | [] => ([], st)
  | (k, v) :: kvs =>
    let old := st k
    let r := insertBatchLoop (mapInsertIdx st k v) kvs
    (old :: r.1, r.2)

/-- HashMap::insert_batch (src/src/structures/hashmap.rs:145-168): one
HashMapEntry record per input pair, in input order. -/
def insert_batch (id : Bytes) (st : MapIndex) (entries : List (Bytes × Bytes)) :
    List (Option Bytes) × MapIndex × List DBEntry :=
  let r := insertBatchLoop st entries
  (r.1, r.2, entries.map fun p => DBEntry.HashMapEntry id p.1 p.2)

/-- HashMap::remove (src/src/structures/hashmap.rs:181-193): None when the key
is absent, otherwise the value, the updated index and one RemoveHashMapEntry
record. -/
def remove (id : Bytes) (st : MapIndex) (k : Bytes) :
    Option (Bytes × MapIndex × List DBEntry) :=
  match st k with
  | none => none
  | some v => some (v, mapRemoveIdx st k, [DBEntry.RemoveHashMapEntry id k])

/-- In-memory phase of HashMap::remove_batch: the removed pairs in input
order (absent keys contribute nothing) and the updated index. -/
def removeBatchLoop (st : MapIndex) : List Bytes → List (Bytes × Bytes) × MapIndex
  | [] => ([], st)
  | k :: ks =>
    match st k with
    | some v =>
      let r := removeBatchLoop (mapRemoveIdx st k) ks
      ((k, v) :: r.1, r.2)
    | none => removeBatchLoop st ks

/-- HashMap::remove_batch (src/src/structures/hashmap.rs:200-222): one
RemoveHashMapEntry record per pair actually removed. -/
def remove_batch (id : Bytes) (st : MapIndex) (ks : List Bytes) :
    List (Bytes × Bytes) × MapIndex × List DBEntry :=
  let r := removeBatchLoop st ks
  (r.1, r.2, r.1.map fun p => DBEntry.RemoveHashMapEntry id p.1)

end HashMap

namespace HashSet

/-- HashSet::insert (src/src/structures/hashset.rs:118-127): returns true when
newly inserted, and always appends one HashSetEntry record. -/
def insert (id : Bytes) (st : SetIndex) (k : Bytes) :
    Bool × SetIndex × List DBEntry :=
  (!(st k), setInsertIdx st k, [DBEntry.HashSetEntry id k])

/-- In-memory phase of HashSet::insert_batch. -/
def insertBatchLoop (st : SetIndex) : List Bytes → List Bool × SetIndex
  | [] => ([], st)
  | k :: ks =>
    let old := !(st k)
    let r := insertBatchLoop (setInsertIdx st k) ks
    (old :: r.1, r.2)

/-- HashSet::insert_batch (src/src/structures/hashset.rs:132-151). -/
def insert_batch (id : Bytes) (st : SetIndex) (ks : List Bytes) :
    List Bool × SetIndex × List DBEntry :=
  let r := insertBatchLoop st ks
  (r.1, r.2, ks.map fun k => DBEntry.HashSetEntry id k)

/-- HashSet::remove (src/src/structures/hashset.rs:164-176): appends one
RemoveHashSetEntry record when the key was present. -/
def remove (id : Bytes) (st : SetIndex) (k : Bytes) :
    Option (Bytes × SetIndex × List DBEntry) :=
  if st k then some (k, setRemoveIdx st k, [DBEntry.RemoveHashSetEntry id k])
  else none

/-- In-memory phase of HashSet::remove_batch: removed keys in input order. -/
def removeBatchLoop (st : SetIndex) : List Bytes → List Bytes × SetIndex
  | [] => ([], st)
  | k :: ks =>
    if st k then
      let r := removeBatchLoop (setRemoveIdx st k) ks
      (k :: r.1, r.2)
    else removeBatchLoop st ks

/-- HashSet::remove_batch (src/src/structures/hashset.rs:181-203).  Note the
source constructs DBEntry::RemoveHashMapEntry (line 197) for the durability
records of a set batch removal; this is embedded as written. -/
def remove_batch (id : Bytes) (st : SetIndex) (ks : List Bytes) :
    List Bytes × SetIndex × List DBEntry :=
  let r := removeBatchLoop st ks
  (r.1, r.2, r.1.map fun k => DBEntry.RemoveHashMapEntry id k)

end HashSet

/-- A user-level operation on a set handle. -/
inductive SetOp
  | ins (k : Bytes)
  | rm (k : Bytes)
  | insBatch (ks : List Bytes)
  | rmBatch (ks : List Bytes)

/-- Run one set operation: the new in-memory index and the records the
awaited durability task appends. -/
def runSetOp (id : Bytes) (st : SetIndex) : SetOp → SetIndex × List DBEntry
  | .ins k =>
    let r := HashSet.insert id st k
    (r.2.1, r.2.2)
  | .rm k =>
    match HashSet.remove id st k with
    | some (_, st2, recs) => (st2, recs)
    | none => (st, [])
  | .insBatch ks =>
    let r := HashSet.insert_batch id st ks
    (r.2.1, r.2.2)
  | .rmBatch ks =>
    let r := HashSet.remove_batch id st ks
    (r.2.1, r.2.2)

/-- Run a sequence of set operations, accumulating the appended records
in log order. -/
def runSetOps (id : Bytes) (st : SetIndex) : List SetOp → SetIndex × List DBEntry
  | [] => (st, [])
  | op :: ops =>
    let r := runSetOp id st op
    let r2 := runSetOps id r.1 ops
    (r2.1, r.2 ++ r2.2)

/-- Scan loop shared by HashMap::clear (src/src/structures/hashmap.rs:249-263)
and HashSet::clear (src/src/structures/hashset.rs:228-242): decode records
while Ok, stopping at the first decode error of any kind. -/
def scanEntriesLoop : Nat → Bytes → List DBEntry
  | 0, _ => []
  | fuel + 1, bs =>
    match decodeEntry bs with
    | .ok (e, rest) => e :: scanEntriesLoop fuel rest
    | .error _ => []

/-- Records decoded by the clear scan from the full file contents. -/
def scan_entries (bs : Bytes) : List DBEntry := scanEntriesLoop bs.length bs

/-- Keep-predicate of HashMap::clear: map records of this id are dropped,
every other decoded record is kept. -/
def keepForMapClear (id : Bytes) : DBEntry → Bool
  | .HashMapEntry i _ _ => decide (i ≠ id)
  | .RemoveHashMapEntry i _ => decide (i ≠ id)
  | _ => true

/-- Keep-predicate of HashSet::clear: set records of this id are dropped,
every other decoded record is kept. -/
def keepForSetClear (id : Bytes) : DBEntry → Bool
  | .HashSetEntry i _ => decide (i ≠ id)
  | .RemoveHashSetEntry i _ => decide (i ≠ id)
  | _ => true

namespace HashMap

/-- File contents written by HashMap::clear (src/src/structures/hashmap.rs:241-276):
re-encode the kept records in scan order over a truncated file. -/
def clear (id : Bytes) (bs : Bytes) : Bytes :=
  (((scan_entries bs).filter (keepForMapClear id)).map encodeEntry).flatten

end HashMap

namespace HashSet

/-- File contents written by HashSet::clear (src/src/structures/hashset.rs:220-255). -/
def clear (id : Bytes) (bs : Bytes) : Bytes :=
  (((scan_entries bs).filter (keepForSetClear id)).map encodeEntry).flatten

end HashSet

/-- Keys of the input list found present when processed sequentially against
the index; the reference description of which keys remove_batch records. -/
def presentKeys (st : MapIndex) : List Bytes → List Bytes
  | [] => []
  | k :: ks =>
    match st k with
    | some _ => k :: presentKeys (mapRemoveIdx st k) ks
    | none => presentKeys st ks

/-- The largest prefix of records whose encodings fit completely within the
first k bytes of the log. -/
def completeWithin (k : Nat) : List DBEntry → List DBEntry
  | [] => []
  | r :: rs =>
    if (encodeEntry r).length ≤ k then
      r :: completeWithin (k - (encodeEntry r).length) rs
    else []

theorem length_le64 (n : Nat) : (le64 n).length = 8 := rfl

theorem leVal_le64 (n : Nat) (h : n < 18446744073709551616) : leVal (le64 n) = n := by
  simp only [le64, leVal, byteOf, List.foldr_cons, List.foldr_nil]
  omega

theorem length_encodeBytes (v : Bytes) : (encodeBytes v).length = 8 + v.length := by
  simp [encodeBytes, le64]
  omega

theorem take_encodeBytes_append (x rest : Bytes) :
    (encodeBytes x ++ rest).take 8 = le64 x.length := by
  rw [encodeBytes, List.append_assoc, ← length_le64 x.length]
  exact List.take_left _ _

theorem drop_encodeBytes_append (x rest : Bytes) :
    (encodeBytes x ++ rest).drop 8 = x ++ rest := by
  rw [encodeBytes, List.append_assoc, ← length_le64 x.length]
  exact List.drop_left _ _

theorem readBlob_encodeBytes (x rest : Bytes) (hx : x.length < 18446744073709551616) :
    readBlob (encodeBytes x ++ rest) = .ok (x, rest) := by
  have hlen : 8 ≤ (encodeBytes x ++ rest).length := by
    simp [length_encodeBytes]
    omega
  simp only [readBlob, take_encodeBytes_append, drop_encodeBytes_append,
    leVal_le64 _ hx, if_pos hlen]
  rw [if_pos (by simp : x.length ≤ (x ++ rest).length), List.take_left, List.drop_left]

theorem take_append_le64 (x rest : Bytes) (n : Nat) (h8 : 8 ≤ n) :
    (encodeBytes x ++ rest).take n = le64 x.length ++ (x ++ rest).take (n - 8) := by
  rw [encodeBytes, List.append_assoc, List.take_append_eq_append_take,
    List.take_of_length_le (by rw [length_le64]; exact h8), length_le64]

theorem readBlob_take_eof (x rest : Bytes) (n : Nat)
    (hx : x.length < 18446744073709551616) (hn : n < 8 + x.length) :
    readBlob ((encodeBytes x ++ rest).take n) = .error .eof := by
  by_cases h8 : 8 ≤ n
  · rw [take_append_le64 x rest n h8]
    have hlen : 8 ≤ (le64 x.length ++ (x ++ rest).take (n - 8)).length := by
      simp [length_le64]
    have htk : (le64 x.length ++ (x ++ rest).take (n - 8)).take 8 = le64 x.length := by
      rw [← length_le64 x.length]
      exact List.take_left _ _
    have hdp : (le64 x.length ++ (x ++ rest).take (n - 8)).drop 8 = (x ++ rest).take (n - 8) := by
      rw [← length_le64 x.length]
      exact List.drop_left _ _
    simp only [readBlob, htk, hdp, leVal_le64 _ hx, if_pos hlen]
    rw [if_neg]
    intro hc
    have hta : ((x ++ rest).take (n - 8)).length ≤ n - 8 := by
      rw [List.length_take]
      omega
    omega
  · have hlt : ((encodeBytes x ++ rest).take n).length < 8 := by
      rw [List.length_take]
      omega
    unfold readBlob
    rw [if_neg (by omega)]

theorem readBlob_take_ok (x rest : Bytes) (n : Nat)
    (hx : x.length < 18446744073709551616) (hn : 8 + x.length ≤ n) :
    readBlob ((encodeBytes x ++ rest).take n) = .ok (x, rest.take (n - (8 + x.length))) := by
  rw [take_append_le64 x rest n (by omega)]
  have h2 : (x ++ rest).take (n - 8) = x ++ rest.take (n - 8 - x.length) := by
    rw [List.take_append_eq_append_take, List.take_of_length_le (by omega)]
  rw [h2]
  have hlen : 8 ≤ (le64 x.length ++ (x ++ rest.take (n - 8 - x.length))).length := by
    simp [length_le64]
  have htk : (le64 x.length ++ (x ++ rest.take (n - 8 - x.length))).take 8 = le64 x.length := by
    rw [← length_le64 x.length]
    exact List.take_left _ _
  have hdp : (le64 x.length ++ (x ++ rest.take (n - 8 - x.length))).drop 8
      = x ++ rest.take (n - 8 - x.length) := by
    rw [← length_le64 x.length]
    exact List.drop_left _ _
  simp only [readBlob, htk, hdp, leVal_le64 _ hx, if_pos hlen]
  rw [if_pos (by simp), List.take_left, List.drop_left, Nat.sub_sub]

theorem length_encodeEntry_pos (e : DBEntry) : 0 < (encodeEntry e).length := by
  cases e <;> simp [encodeEntry]

theorem encodeEntry_ne_nil (e : DBEntry) : encodeEntry e ≠ [] := by
  cases e <;> simp [encodeEntry]

theorem length_encodeEntry_map (i k v : Bytes) :
    (encodeEntry (DBEntry.HashMapEntry i k v)).length
      = 25 + i.length + k.length + v.length := by
  simp [encodeEntry, length_encodeBytes]
  omega

theorem length_encodeEntry_mapRemove (i k : Bytes) :
    (encodeEntry (DBEntry.RemoveHashMapEntry i k)).length = 17 + i.length + k.length := by
  simp [encodeEntry, length_encodeBytes]
  omega

theorem length_encodeEntry_set (i k : Bytes) :
    (encodeEntry (DBEntry.HashSetEntry i k)).length = 17 + i.length + k.length := by
  simp [encodeEntry, length_encodeBytes]
  omega

theorem length_encodeEntry_setRemove (i k : Bytes) :
    (encodeEntry (DBEntry.RemoveHashSetEntry i k)).length = 17 + i.length + k.length := by
  simp [encodeEntry, length_encodeBytes]
  omega

theorem decodeEntry_encode (e : DBEntry) (rest : Bytes) (he : wfEntry e) :
    decodeEntry (encodeEntry e ++ rest) = .ok (e, rest) := by
  cases e with
  | HashMapEntry i k v =>
    obtain ⟨hi, hk, hv⟩ := he
    have h1 := readBlob_encodeBytes i (encodeBytes k ++ (encodeBytes v ++ rest)) hi
    have h2 := readBlob_encodeBytes k (encodeBytes v ++ rest) hk
    have h3 := readBlob_encodeBytes v rest hv
    simp [decodeEntry, readBlob2, encodeEntry, List.append_assoc, h1, h2, h3]
  | RemoveHashMapEntry i k =>
    obtain ⟨hi, hk⟩ := he
    have h1 := readBlob_encodeBytes i (encodeBytes k ++ rest) hi
    have h2 := readBlob_encodeBytes k rest hk
    simp [decodeEntry, readBlob2, encodeEntry, List.append_assoc, h1, h2,
      show ((1 : Byte) = 0) ↔ False by decide]
  | HashSetEntry i k =>
    obtain ⟨hi, hk⟩ := he
    have h1 := readBlob_encodeBytes i (encodeBytes k ++ rest) hi
    have h2 := readBlob_encodeBytes k rest hk
    simp [decodeEntry, readBlob2, encodeEntry, List.append_assoc, h1, h2,
      show ((2 : Byte) = 0) ↔ False by decide, show ((2 : Byte) = 1) ↔ False by decide]
  | RemoveHashSetEntry i k =>
    obtain ⟨hi, hk⟩ := he
    have h1 := readBlob_encodeBytes i (encodeBytes k ++ rest) hi
    have h2 := readBlob_encodeBytes k rest hk
    simp [decodeEntry, readBlob2, encodeEntry, List.append_assoc, h1, h2,
      show ((3 : Byte) = 0) ↔ False by decide, show ((3 : Byte) = 1) ↔ False by decide,
      show ((3 : Byte) = 2) ↔ False by decide]

theorem decodeEntry_badTag (t : Byte) (rest : Bytes)
    (h0 : t ≠ 0) (h1 : t ≠ 1) (h2 : t ≠ 2) (h3 : t ≠ 3) :
    decodeEntry (t :: rest) = .error (.badTag t) := by
  simp [decodeEntry, h0, h1, h2, h3]

theorem decodeEntry_take_eof (e : DBEntry) (rest : Bytes) (n : Nat) (he : wfEntry e)
    (hn0 : 0 < n) (hn : n < (encodeEntry e).length) :
    decodeEntry ((encodeEntry e ++ rest).take n) = .error .eof := by
  obtain ⟨m, rfl⟩ : ∃ m, n = m + 1 := ⟨n - 1, by omega⟩
  cases e with
  | HashMapEntry i k v =>
    obtain ⟨hi, hk, hv⟩ := he
    rw [length_encodeEntry_map] at hn
    have hshape : (encodeEntry (DBEntry.HashMapEntry i k v) ++ rest).take (m + 1)
        = (0 : Byte) :: (encodeBytes i ++ (encodeBytes k ++ (encodeBytes v ++ rest))).take m := by
      simp [encodeEntry, List.append_assoc, List.take_succ_cons]
    rw [hshape]
    by_cases h1 : m < 8 + i.length
    · have hr := readBlob_take_eof i (encodeBytes k ++ (encodeBytes v ++ rest)) m hi h1
      simp [decodeEntry, readBlob2, hr]
    · push_neg at h1
      have hr := readBlob_take_ok i (encodeBytes k ++ (encodeBytes v ++ rest)) m hi h1
      by_cases h2 : m - (8 + i.length) < 8 + k.length
      · have hr2 := readBlob_take_eof k (encodeBytes v ++ rest) (m - (8 + i.length)) hk h2
        simp [decodeEntry, readBlob2, hr, hr2]
      · push_neg at h2
        have hr2 := readBlob_take_ok k (encodeBytes v ++ rest) (m - (8 + i.length)) hk h2
        have h3 : m - (8 + i.length) - (8 + k.length) < 8 + v.length := by omega
        have hr3 := readBlob_take_eof v rest (m - (8 + i.length) - (8 + k.length)) hv h3
        simp [decodeEntry, readBlob2, hr, hr2, hr3]
  | RemoveHashMapEntry i k =>
    obtain ⟨hi, hk⟩ := he
    rw [length_encodeEntry_mapRemove] at hn
    have hshape : (encodeEntry (DBEntry.RemoveHashMapEntry i k) ++ rest).take (m + 1)
        = (1 : Byte) :: (encodeBytes i ++ (encodeBytes k ++ rest)).take m := by
      simp [encodeEntry, List.append_assoc, List.take_succ_cons]
    rw [hshape]
    by_cases h1 : m < 8 + i.length
    · have hr := readBlob_take_eof i (encodeBytes k ++ rest) m hi h1
      simp [decodeEntry, readBlob2, hr, show ((1 : Byte) = 0) ↔ False by decide]
    · push_neg at h1
      have hr := readBlob_take_ok i (encodeBytes k ++ rest) m hi h1
      have h2 : m - (8 + i.length) < 8 + k.length := by omega
      have hr2 := readBlob_take_eof k rest (m - (8 + i.length)) hk h2
      simp [decodeEntry, readBlob2, hr, hr2, show ((1 : Byte) = 0) ↔ False by decide]
  | HashSetEntry i k =>
    obtain ⟨hi, hk⟩ := he
    rw [length_encodeEntry_set] at hn
    have hshape : (encodeEntry (DBEntry.HashSetEntry i k) ++ rest).take (m + 1)
        = (2 : Byte) :: (encodeBytes i ++ (encodeBytes k ++ rest)).take m := by
      simp [encodeEntry, List.append_assoc, List.take_succ_cons]
    rw [hshape]
    by_cases h1 : m < 8 + i.length
    · have hr := readBlob_take_eof i (encodeBytes k ++ rest) m hi h1
      simp [decodeEntry, readBlob2, hr, show ((2 : Byte) = 0) ↔ False by decide,
        show ((2 : Byte) = 1) ↔ False by decide]
    · push_neg at h1
      have hr := readBlob_take_ok i (encodeBytes k ++ rest) m hi h1
      have h2 : m - (8 + i.length) < 8 + k.length := by omega
      have hr2 := readBlob_take_eof k rest (m - (8 + i.length)) hk h2
      simp [decodeEntry, readBlob2, hr, hr2, show ((2 : Byte) = 0) ↔ False by decide,
        show ((2 : Byte) = 1) ↔ False by decide]
  | RemoveHashSetEntry i k =>
    obtain ⟨hi, hk⟩ := he
    rw [length_encodeEntry_setRemove] at hn
    have hshape : (encodeEntry (DBEntry.RemoveHashSetEntry i k) ++ rest).take (m + 1)
        = (3 : Byte) :: (encodeBytes i ++ (encodeBytes k ++ rest)).take m := by
      simp [encodeEntry, List.append_assoc, List.take_succ_cons]
    rw [hshape]
    by_cases h1 : m < 8 + i.length
    · have hr := readBlob_take_eof i (encodeBytes k ++ rest) m hi h1
      simp [decodeEntry, readBlob2, hr, show ((3 : Byte) = 0) ↔ False by decide,
        show ((3 : Byte) = 1) ↔ False by decide, show ((3 : Byte) = 2) ↔ False by decide]
    · push_neg at h1
      have hr := readBlob_take_ok i (encodeBytes k ++ rest) m hi h1
      have h2 : m - (8 + i.length) < 8 + k.length := by omega
      have hr2 := readBlob_take_eof k rest (m - (8 + i.length)) hk h2
      simp [decodeEntry, readBlob2, hr, hr2, show ((3 : Byte) = 0) ↔ False by decide,
        show ((3 : Byte) = 1) ↔ False by decide, show ((3 : Byte) = 2) ↔ False by decide]

theorem readBlob_length_le {bs x r : Bytes} (h : readBlob bs = .ok (x, r)) :
    r.length ≤ bs.length := by
  unfold readBlob at h
  split at h
  · split at h
    · injection h with h2
      injection h2 with hA hB
      subst hB
      simp [List.length_drop]
    · exact absurd h (by simp)
  · exact absurd h (by simp)

theorem readBlob2_length_le {bs : Bytes} {p : Bytes × Bytes} {r : Bytes}
    (h : readBlob2 bs = .ok (p, r)) : r.length ≤ bs.length := by
  unfold readBlob2 at h
  cases h1 : readBlob bs with
  | error e =>
    rw [h1] at h
    exact absurd h (by simp)
  | ok q =>
    obtain ⟨a, r1⟩ := q
    rw [h1] at h
    dsimp only at h
    cases h2 : readBlob r1 with
    | error e =>
      rw [h2] at h
      exact absurd h (by simp)
    | ok q2 =>
      obtain ⟨b, r2⟩ := q2
      rw [h2] at h
      dsimp only at h
      injection h with h3
      injection h3 with hA hB
      subst hB
      exact le_trans (readBlob_length_le h2) (readBlob_length_le h1)

theorem decodeEntry_length_lt {bs : Bytes} {e : DBEntry} {r : Bytes}
    (h : decodeEntry bs = .ok (e, r)) : r.length < bs.length := by
  cases bs with
  | nil => exact absurd h (by simp [decodeEntry])
  | cons t rest =>
    have hgoal : r.length ≤ rest.length → r.length < (t :: rest).length := by
      simp only [List.length_cons]
      omega
    apply hgoal
    unfold decodeEntry at h
    dsimp only at h
    split_ifs at h
    · cases h1 : readBlob2 rest with
      | error err =>
        rw [h1] at h
        exact absurd h (by simp)
      | ok q =>
        obtain ⟨⟨i, k⟩, r2⟩ := q
        rw [h1] at h
        dsimp only at h
        cases h2 : readBlob r2 with
        | error err =>
          rw [h2] at h
          exact absurd h (by simp)
        | ok q2 =>
          obtain ⟨v, r3⟩ := q2
          rw [h2] at h
          dsimp only at h
          injection h with h3
          injection h3 with hA hB
          subst hB
          exact le_trans (readBlob_length_le h2) (readBlob2_length_le h1)
    · cases h1 : readBlob2 rest with
      | error err =>
        rw [h1] at h
        exact absurd h (by simp)
      | ok q =>
        obtain ⟨⟨i, k⟩, r2⟩ := q
        rw [h1] at h
        dsimp only at h
        injection h with h3
        injection h3 with hA hB
        subst hB
        exact readBlob2_length_le h1
    · cases h1 : readBlob2 rest with
      | error err =>
        rw [h1] at h
        exact absurd h (by simp)
      | ok q =>
        obtain ⟨⟨i, k⟩, r2⟩ := q
        rw [h1] at h
        dsimp only at h
        injection h with h3
        injection h3 with hA hB
        subst hB
        exact readBlob2_length_le h1
    · cases h1 : readBlob2 rest with
      | error err =>
        rw [h1] at h
        exact absurd h (by simp)
      | ok q =>
        obtain ⟨⟨i, k⟩, r2⟩ := q
        rw [h1] at h
        dsimp only at h
        injection h with h3
        injection h3 with hA hB
        subst hB
        exact readBlob2_length_le h1

theorem replayLoop_congr {α : Type} (apply : α → DBEntry → α) :
    ∀ (f1 f2 : Nat) (st : α) (bs : Bytes), bs.length ≤ f1 → bs.length ≤ f2 →
      replayLoop apply f1 st bs = replayLoop apply f2 st bs := by
  intro f1
  induction f1 with
  | zero =>
    intro f2 st bs h1 h2
    have hb : bs = [] := List.length_eq_zero.mp (by omega)
    subst hb
    cases f2 <;> simp [replayLoop]
  | succ n ih =>
    intro f2 st bs h1 h2
    cases f2 with
    | zero =>
      have hb : bs = [] := List.length_eq_zero.mp (by omega)
      subst hb
      simp [replayLoop]
    | succ m =>
      by_cases hbs : bs = []
      · subst hbs
        simp [replayLoop]
      · simp only [replayLoop, if_neg hbs]
        cases hdec : decodeEntry bs with
        | ok pr =>
          obtain ⟨e, rest⟩ := pr
          have hlt := decodeEntry_length_lt hdec
          exact ih m (apply st e) rest (by omega) (by omega)
        | error err => cases err <;> rfl

theorem loadBytes_nil {α : Type} (a : α → DBEntry → α) (st : α) :
    loadBytes a st [] = .ok st := rfl

theorem loadBytes_cons {α : Type} (a : α → DBEntry → α) (st : α) (e : DBEntry)
    (rest : Bytes) (he : wfEntry e) :
    loadBytes a st (encodeEntry e ++ rest) = loadBytes a (a st e) rest := by
  unfold loadBytes
  have hne : encodeEntry e ++ rest ≠ [] := by
    cases e <;> simp [encodeEntry]
  have hpos := length_encodeEntry_pos e
  obtain ⟨m, hm⟩ : ∃ m, (encodeEntry e ++ rest).length = m + 1 :=
    ⟨(encodeEntry e ++ rest).length - 1, by simp; omega⟩
  have hrest : rest.length ≤ m := by
    have := List.length_append (encodeEntry e) rest
    omega
  rw [hm]
  simp only [replayLoop, if_neg hne, decodeEntry_encode e rest he]
  exact replayLoop_congr a m rest.length (a st e) rest hrest le_rfl

theorem loadBytes_take_eof {α : Type} (a : α → DBEntry → α) (st : α) (e : DBEntry)
    (rest : Bytes) (n : Nat) (he : wfEntry e) (hn0 : 0 < n)
    (hn : n < (encodeEntry e).length) :
    loadBytes a st ((encodeEntry e ++ rest).take n) = .ok st := by
  unfold loadBytes
  have hlen : ((encodeEntry e ++ rest).take n).length = n := by
    rw [List.length_take, List.length_append]
    omega
  have hne : (encodeEntry e ++ rest).take n ≠ [] := by
    intro hc
    rw [hc] at hlen
    simp at hlen
    omega
  obtain ⟨m, rfl⟩ : ∃ m, n = m + 1 := ⟨n - 1, by omega⟩
  rw [hlen]
  simp only [replayLoop, if_neg hne, decodeEntry_take_eof e rest (m + 1) he hn0 hn]

theorem loadBytes_badTag {α : Type} (a : α → DBEntry → α) (st : α) (t : Byte)
    (rest : Bytes) (h0 : t ≠ 0) (h1 : t ≠ 1) (h2 : t ≠ 2) (h3 : t ≠ 3) :
    loadBytes a st (t :: rest) = .error (.badTag t) := by
  unfold loadBytes
  simp only [List.length_cons, replayLoop, if_neg (by simp : (t :: rest) ≠ []),
    decodeEntry_badTag t rest h0 h1 h2 h3]

theorem loadBytes_flatten_append {α : Type} (a : α → DBEntry → α) (st : α)
    (rs : List DBEntry) (tail : Bytes) (hw : ∀ r ∈ rs, wfEntry r) :
    loadBytes a st ((rs.map encodeEntry).flatten ++ tail) =
      loadBytes a (rs.foldl a st) tail := by
  induction rs generalizing st with
  | nil => simp
  | cons r rs ih =>
    simp only [List.map_cons, List.flatten_cons, List.append_assoc, List.foldl_cons]
    rw [loadBytes_cons a st r _ (hw r (by simp))]
    exact ih (a st r) (fun x hx => hw x (by simp [hx]))

theorem loadBytes_flatten {α : Type} (a : α → DBEntry → α) (st : α)
    (rs : List DBEntry) (hw : ∀ r ∈ rs, wfEntry r) :
    loadBytes a st (rs.map encodeEntry).flatten = .ok (rs.foldl a st) := by
  have h := loadBytes_flatten_append a st rs [] hw
  simpa using h

theorem loadBytes_take_flatten {α : Type} (a : α → DBEntry → α) (rs : List DBEntry) :
    ∀ (n : Nat) (st : α), (∀ r ∈ rs, wfEntry r) →
      loadBytes a st (((rs.map encodeEntry).flatten).take n) =
        .ok ((completeWithin n rs).foldl a st) := by
  induction rs with
  | nil =>
    intro n st _
    simp [completeWithin, loadBytes_nil]
  | cons r rs ih =>
    intro n st hw
    have hwr : wfEntry r := hw r (by simp)
    have hwrs : ∀ x ∈ rs, wfEntry x := fun x hx => hw x (by simp [hx])
    simp only [List.map_cons, List.flatten_cons]
    by_cases hle : (encodeEntry r).length ≤ n
    · rw [List.take_append_eq_append_take, List.take_of_length_le hle,
        loadBytes_cons a st r _ hwr, ih (n - (encodeEntry r).length) (a st r) hwrs]
      rw [completeWithin, if_pos hle, List.foldl_cons]
    · cases n with
      | zero =>
        rw [completeWithin, if_neg hle]
        simp [loadBytes_nil]
      | succ m =>
        rw [loadBytes_take_eof a st r _ (m + 1) hwr (by omega) (by omega),
          completeWithin, if_neg hle]
        rfl

theorem scanLoop_congr : ∀ (f1 f2 : Nat) (bs : Bytes), bs.length ≤ f1 → bs.length ≤ f2 →
    scanEntriesLoop f1 bs = scanEntriesLoop f2 bs := by
  intro f1
  induction f1 with
  | zero =>
    intro f2 bs h1 h2
    have hb : bs = [] := List.length_eq_zero.mp (by omega)
    subst hb
    cases f2 <;> simp [scanEntriesLoop, decodeEntry]
  | succ n ih =>
    intro f2 bs h1 h2
    cases f2 with
    | zero =>
      have hb : bs = [] := List.length_eq_zero.mp (by omega)
      subst hb
      simp [scanEntriesLoop, decodeEntry]
    | succ m =>
      simp only [scanEntriesLoop]
      cases hdec : decodeEntry bs with
      | ok pr =>
        obtain ⟨e, rest⟩ := pr
        have hlt := decodeEntry_length_lt hdec
        show e :: scanEntriesLoop n rest = e :: scanEntriesLoop m rest
        rw [ih m rest (by omega) (by omega)]
      | error err => rfl

theorem scan_entries_nil : scan_entries [] = [] := rfl

theorem scan_entries_cons (e : DBEntry) (rest : Bytes) (he : wfEntry e) :
    scan_entries (encodeEntry e ++ rest) = e :: scan_entries rest := by
  unfold scan_entries
  have hpos := length_encodeEntry_pos e
  obtain ⟨m, hm⟩ : ∃ m, (encodeEntry e ++ rest).length = m + 1 :=
    ⟨(encodeEntry e ++ rest).length - 1, by simp; omega⟩
  have hrest : rest.length ≤ m := by
    have := List.length_append (encodeEntry e) rest
    omega
  rw [hm]
  simp only [scanEntriesLoop, decodeEntry_encode e rest he]
  rw [scanLoop_congr m rest.length rest hrest le_rfl]

theorem scan_entries_error (bs : Bytes) (err : DecErr) (h : decodeEntry bs = .error err) :
    scan_entries bs = [] := by
  unfold scan_entries
  cases bs with
  | nil => rfl
  | cons t rest =>
    simp only [List.length_cons, scanEntriesLoop, h]

theorem scan_entries_flatten (rs : List DBEntry) (hw : ∀ r ∈ rs, wfEntry r) :
    scan_entries (rs.map encodeEntry).flatten = rs := by
  induction rs with
  | nil => rfl
  | cons r rs ih =>
    simp only [List.map_cons, List.flatten_cons]
    rw [scan_entries_cons r _ (hw r (by simp))]
    rw [ih (fun x hx => hw x (by simp [hx]))]

theorem scan_entries_flatten_badTag (rs : List DBEntry) (t : Byte) (tail : Bytes)
    (hw : ∀ r ∈ rs, wfEntry r) (h0 : t ≠ 0) (h1 : t ≠ 1) (h2 : t ≠ 2) (h3 : t ≠ 3) :
    scan_entries ((rs.map encodeEntry).flatten ++ t :: tail) = rs := by
  induction rs with
  | nil =>
    simp only [List.map_nil, List.flatten_nil, List.nil_append]
    exact scan_entries_error _ _ (decodeEntry_badTag t tail h0 h1 h2 h3)
  | cons r rs ih =>
    simp only [List.map_cons, List.flatten_cons, List.append_assoc]
    rw [scan_entries_cons r _ (hw r (by simp))]
    rw [ih (fun x hx => hw x (by simp [hx]))]

theorem applyMapRecord_dropped (id2 id : Bytes) (hne : id2 ≠ id) (st : MapIndex)
    (r : DBEntry) (hdrop : keepForMapClear id r = false) :
    applyMapRecord id2 st r = st := by
  cases r with
  | HashMapEntry i k v =>
    simp only [keepForMapClear, decide_eq_false_iff_not, not_not] at hdrop
    subst hdrop
    simp only [applyMapRecord]
    rw [if_neg (show ¬ i = id2 from fun hc => hne hc.symm)]
  | RemoveHashMapEntry i k =>
    simp only [keepForMapClear, decide_eq_false_iff_not, not_not] at hdrop
    subst hdrop
    simp only [applyMapRecord]
    rw [if_neg (show ¬ i = id2 from fun hc => hne hc.symm)]
  | HashSetEntry i k => simp [keepForMapClear] at hdrop
  | RemoveHashSetEntry i k => simp [keepForMapClear] at hdrop

theorem applySetRecord_mapKindDropped (id2 id : Bytes) (st : SetIndex)
    (r : DBEntry) (hdrop : keepForMapClear id r = false) :
    applySetRecord id2 st r = st := by
  cases r with
  | HashMapEntry i k v => rfl
  | RemoveHashMapEntry i k => rfl
  | HashSetEntry i k => simp [keepForMapClear] at hdrop
  | RemoveHashSetEntry i k => simp [keepForMapClear] at hdrop

theorem applySetRecord_dropped (id2 id : Bytes) (hne : id2 ≠ id) (st : SetIndex)
    (r : DBEntry) (hdrop : keepForSetClear id r = false) :
    applySetRecord id2 st r = st := by
  cases r with
  | HashMapEntry i k v => rfl
  | RemoveHashMapEntry i k => rfl
  | HashSetEntry i k =>
    simp only [keepForSetClear, decide_eq_false_iff_not, not_not] at hdrop
    subst hdrop
    simp only [applySetRecord]
    rw [if_neg (show ¬ i = id2 from fun hc => hne hc.symm)]
  | RemoveHashSetEntry i k =>
    simp only [keepForSetClear, decide_eq_false_iff_not, not_not] at hdrop
    subst hdrop
    simp only [applySetRecord]
    rw [if_neg (show ¬ i = id2 from fun hc => hne hc.symm)]

theorem applyMapRecord_setKindDropped (id2 id : Bytes) (st : MapIndex)
    (r : DBEntry) (hdrop : keepForSetClear id r = false) :
    applyMapRecord id2 st r = st := by
  cases r with
  | HashMapEntry i k v => simp [keepForSetClear] at hdrop
  | RemoveHashMapEntry i k => simp [keepForSetClear] at hdrop
  | HashSetEntry i k => rfl
  | RemoveHashSetEntry i k => rfl

theorem foldl_filter_general {α : Type} (apply : α → DBEntry → α) (p : DBEntry → Bool)
    (hskip : ∀ (st : α) (r : DBEntry), p r = false → apply st r = st)
    (rs : List DBEntry) : ∀ st : α,
      (rs.filter p).foldl apply st = rs.foldl apply st := by
  induction rs with
  | nil => intro st; rfl
  | cons r rs ih =>
    intro st
    by_cases hk : p r
    · rw [List.filter_cons_of_pos hk]
      simp only [List.foldl_cons]
      exact ih _
    · rw [List.filter_cons_of_neg hk]
      simp only [List.foldl_cons]
      rw [hskip st r (by simpa using hk)]
      exact ih st

theorem removeBatchLoop_fst (ks : List Bytes) : ∀ st : MapIndex,
    (HashMap.removeBatchLoop st ks).1.map Prod.fst = presentKeys st ks := by
  induction ks with
  | nil => intro st; rfl
  | cons k ks ih =>
    intro st
    cases hsk : st k with
    | none => simp [HashMap.removeBatchLoop, presentKeys, hsk, ih]
    | some v => simp [HashMap.removeBatchLoop, presentKeys, hsk, ih (mapRemoveIdx st k)]

/-- Claim C1: replay equals fold.  The claim fails on the code: a set handle's
remove_batch appends RemoveHashMapEntry records (src/src/structures/hashset.rs:197),
which HashSet::load_from_file skips, so after the operation sequence
[insert k, remove_batch [k]] the in-memory set does not contain k while
replaying the appended log into a fresh handle does contain k. -/
theorem c1_set_remove_batch_breaks_replay :
    (runSetOps [(0 : Byte)] emptySet
        [SetOp.ins [(1 : Byte)], SetOp.rmBatch [[(1 : Byte)]]]).1 [(1 : Byte)] = false ∧
    HashSet.replayContains [(0 : Byte)]
      (((runSetOps [(0 : Byte)] emptySet
          [SetOp.ins [(1 : Byte)], SetOp.rmBatch [[(1 : Byte)]]]).2.map encodeEntry).flatten)
      [(1 : Byte)] = true := by
  decide

/-- Claim C2: set remove operations use the SetRemove record kind.  The claim
fails on HashSet::remove_batch: removing a present key appends a single
RemoveHashMapEntry record, whose encoding starts with tag byte 1, not the
RemoveHashSetEntry tag 3. -/
theorem c2_set_remove_batch_record_kind :
    (HashSet.remove_batch [(0 : Byte)] (setInsertIdx emptySet [(1 : Byte)]) [[(1 : Byte)]]).2.2
        = [DBEntry.RemoveHashMapEntry [(0 : Byte)] [(1 : Byte)]] ∧
    (encodeEntry (DBEntry.RemoveHashMapEntry [(0 : Byte)] [(1 : Byte)])).head? = some 1 ∧
    (encodeEntry (DBEntry.RemoveHashSetEntry [(0 : Byte)] [(1 : Byte)])).head? = some 3 := by
  decide

/-- Claim C3 (counterexample): remove_batch on a single absent key appends
zero records, not one record per input entry as the claim demands. -/
theorem c3_remove_batch_absent_counterexample :
    (HashMap.remove_batch [(0 : Byte)] emptyMap [[(1 : Byte)]]).2.2.length = 0 ∧
    ([[(1 : Byte)]] : List Bytes).length = 1 ∧
    (serialize_to_file (HashMap.remove_batch [(0 : Byte)] emptyMap [[(1 : Byte)]]).2.2
        { bytes := [], flushes := 0 }).bytes = [] := by
  decide

/-- Claim C3 (amended): a single awaited insert appends exactly one record;
insert_batch appends exactly one HashMapEntry record per input pair, in input
order; remove_batch appends exactly one RemoveHashMapEntry record per input
key found present (processed sequentially), in input order — absent keys
contribute no record; the durability task appends the records contiguously
and flushes once. -/
theorem c3_batch_append_amended :
    (∀ (id k v : Bytes) (st : MapIndex), (HashMap.insert id st k v).2.2.length = 1) ∧
    (∀ (id : Bytes) (st : MapIndex) (entries : List (Bytes × Bytes)),
      (HashMap.insert_batch id st entries).2.2
        = entries.map fun p => DBEntry.HashMapEntry id p.1 p.2) ∧
    (∀ (id : Bytes) (st : MapIndex) (ks : List Bytes),
      (HashMap.remove_batch id st ks).2.2
        = (presentKeys st ks).map fun k => DBEntry.RemoveHashMapEntry id k) ∧
    (∀ (recs : List DBEntry) (f : FileState),
      serialize_to_file recs f
        = { bytes := f.bytes ++ (recs.map encodeEntry).flatten, flushes := f.flushes + 1 }) := by
  refine ⟨fun id k v st => rfl, fun id st entries => rfl, ?_, fun recs f => rfl⟩
  intro id st ks
  show (HashMap.removeBatchLoop st ks).1.map (fun p => DBEntry.RemoveHashMapEntry id p.1)
      = (presentKeys st ks).map fun k => DBEntry.RemoveHashMapEntry id k
  rw [← removeBatchLoop_fst ks st, List.map_map]
  rfl

/-- Clear of a map collection over a well-formed log keeps, in order and
bit-for-bit, exactly the records its keep-predicate accepts. -/
theorem map_clear_flatten (id : Bytes) (rs : List DBEntry) (hw : ∀ r ∈ rs, wfEntry r) :
    HashMap.clear id (rs.map encodeEntry).flatten
      = ((rs.filter (keepForMapClear id)).map encodeEntry).flatten := by
  unfold HashMap.clear
  rw [scan_entries_flatten rs hw]

/-- Clear of a set collection over a well-formed log, same shape. -/
theorem set_clear_flatten (id : Bytes) (rs : List DBEntry) (hw : ∀ r ∈ rs, wfEntry r) :
    HashSet.clear id (rs.map encodeEntry).flatten
      = ((rs.filter (keepForSetClear id)).map encodeEntry).flatten := by
  unfold HashSet.clear
  rw [scan_entries_flatten rs hw]

/-- Claim C4 (counterexample): HashMap::clear keeps a set-kind record whose
collection id equals the target id, whereas the claim says the rewritten log
contains exactly the records whose id differs from the target. -/
theorem c4_clear_keeps_same_id_set_record :
    HashMap.clear [(0 : Byte)] (encodeEntry (DBEntry.HashSetEntry [(0 : Byte)] [(1 : Byte)]))
      ≠ (([DBEntry.HashSetEntry [(0 : Byte)] [(1 : Byte)]].filter
            (fun r => decide (r.idOf ≠ [(0 : Byte)]))).map encodeEntry).flatten := by
  decide

/-- Claim C4 (amended): on a well-formed log, clear() rewrites the log to
contain, bit-for-bit and in original order, exactly the records that are of
the other collection kind or whose id differs from the target; consequently
the replayed state of every collection with a different id — and of every
set (resp. map) collection whatsoever under a map (resp. set) clear — is
unchanged. -/
theorem c4_selective_clear_amended :
    ∀ (id : Bytes) (rs : List DBEntry), (∀ r ∈ rs, wfEntry r) →
      (HashMap.clear id (rs.map encodeEntry).flatten
        = ((rs.filter (keepForMapClear id)).map encodeEntry).flatten) ∧
      (∀ id2 : Bytes, id2 ≠ id →
        HashMap.load_from_file id2 emptyMap (HashMap.clear id (rs.map encodeEntry).flatten)
          = HashMap.load_from_file id2 emptyMap (rs.map encodeEntry).flatten) ∧
      (∀ id2 : Bytes,
        HashSet.load_from_file id2 emptySet (HashMap.clear id (rs.map encodeEntry).flatten)
          = HashSet.load_from_file id2 emptySet (rs.map encodeEntry).flatten) ∧
      (HashSet.clear id (rs.map encodeEntry).flatten
        = ((rs.filter (keepForSetClear id)).map encodeEntry).flatten) ∧
      (∀ id2 : Bytes, id2 ≠ id →
        HashSet.load_from_file id2 emptySet (HashSet.clear id (rs.map encodeEntry).flatten)
          = HashSet.load_from_file id2 emptySet (rs.map encodeEntry).flatten) ∧
      (∀ id2 : Bytes,
        HashMap.load_from_file id2 emptyMap (HashSet.clear id (rs.map encodeEntry).flatten)
          = HashMap.load_from_file id2 emptyMap (rs.map encodeEntry).flatten) := by
  intro id rs hw
  have hwfM : ∀ r ∈ rs.filter (keepForMapClear id), wfEntry r :=
    fun r hr => hw r (List.mem_of_mem_filter hr)
  have hwfS : ∀ r ∈ rs.filter (keepForSetClear id), wfEntry r :=
    fun r hr => hw r (List.mem_of_mem_filter hr)
  have hclearM := map_clear_flatten id rs hw
  have hclearS := set_clear_flatten id rs hw
  refine ⟨hclearM, ?_, ?_, hclearS, ?_, ?_⟩
  · intro id2 hne
    simp only [HashMap.load_from_file]
    rw [hclearM, loadBytes_flatten _ _ _ hwfM, loadBytes_flatten _ _ _ hw]
    congr 1
    exact foldl_filter_general (applyMapRecord id2) (keepForMapClear id)
      (fun st r hr => applyMapRecord_dropped id2 id hne st r hr) rs emptyMap
  · intro id2
    simp only [HashSet.load_from_file]
    rw [hclearM, loadBytes_flatten _ _ _ hwfM, loadBytes_flatten _ _ _ hw]
    congr 1
    exact foldl_filter_general (applySetRecord id2) (keepForMapClear id)
      (fun st r hr => applySetRecord_mapKindDropped id2 id st r hr) rs emptySet
  · intro id2 hne
    simp only [HashSet.load_from_file]
    rw [hclearS, loadBytes_flatten _ _ _ hwfS, loadBytes_flatten _ _ _ hw]
    congr 1
    exact foldl_filter_general (applySetRecord id2) (keepForSetClear id)
      (fun st r hr => applySetRecord_dropped id2 id hne st r hr) rs emptySet
  · intro id2
    simp only [HashMap.load_from_file]
    rw [hclearS, loadBytes_flatten _ _ _ hwfS, loadBytes_flatten _ _ _ hw]
    congr 1
    exact foldl_filter_general (applyMapRecord id2) (keepForSetClear id)
      (fun st r hr => applyMapRecord_setKindDropped id2 id st r hr) rs emptyMap

/-- Witness for c4_selective_clear_amended at a concrete two-record log. -/
theorem c4_selective_clear_witness :
    (∀ r ∈ [DBEntry.HashMapEntry [(0 : Byte)] [(1 : Byte)] [(2 : Byte)],
            DBEntry.HashSetEntry [(0 : Byte)] [(3 : Byte)]], wfEntry r) ∧
    HashMap.clear [(0 : Byte)]
        (([DBEntry.HashMapEntry [(0 : Byte)] [(1 : Byte)] [(2 : Byte)],
           DBEntry.HashSetEntry [(0 : Byte)] [(3 : Byte)]].map encodeEntry).flatten)
      = (([DBEntry.HashMapEntry [(0 : Byte)] [(1 : Byte)] [(2 : Byte)],
           DBEntry.HashSetEntry [(0 : Byte)] [(3 : Byte)]].filter
            (keepForMapClear [(0 : Byte)])).map encodeEntry).flatten :=
  ⟨by decide, (c4_selective_clear_amended [(0 : Byte)] _ (by decide)).1⟩

/-- Claim C5: torn-tail tolerance with strict failure otherwise.  Replaying
any byte-truncation of a well-formed log succeeds with the fold of the
complete-record prefix; a record position starting with an unknown tag makes
the open fail. -/
theorem c5_torn_tail_tolerance :
    ∀ (id : Bytes) (rs : List DBEntry), (∀ r ∈ rs, wfEntry r) →
      (∀ n : Nat, HashMap.load_from_file id emptyMap (((rs.map encodeEntry).flatten).take n)
          = .ok ((completeWithin n rs).foldl (applyMapRecord id) emptyMap)) ∧
      (∀ (t : Byte) (tail : Bytes), t ≠ 0 → t ≠ 1 → t ≠ 2 → t ≠ 3 →
        HashMap.load_from_file id emptyMap ((rs.map encodeEntry).flatten ++ t :: tail)
          = .error (.badTag t)) := by
  intro id rs hw
  constructor
  · intro n
    exact loadBytes_take_flatten (applyMapRecord id) rs n emptyMap hw
  · intro t tail h0 h1 h2 h3
    show loadBytes (applyMapRecord id) emptyMap _ = _
    rw [loadBytes_flatten_append (applyMapRecord id) emptyMap rs (t :: tail) hw]
    exact loadBytes_badTag _ _ t tail h0 h1 h2 h3

/-- Witness for c5_torn_tail_tolerance: truncating a one-record log after 7
bytes replays to the empty state. -/
theorem c5_torn_tail_witness :
    (∀ r ∈ [DBEntry.HashMapEntry [(0 : Byte)] [(1 : Byte)] [(2 : Byte)]], wfEntry r) ∧
    HashMap.load_from_file [(0 : Byte)] emptyMap
        ((([DBEntry.HashMapEntry [(0 : Byte)] [(1 : Byte)] [(2 : Byte)]].map
            encodeEntry).flatten).take 7)
      = .ok ((completeWithin 7 [DBEntry.HashMapEntry [(0 : Byte)] [(1 : Byte)] [(2 : Byte)]]).foldl
          (applyMapRecord [(0 : Byte)]) emptyMap) :=
  ⟨by decide, (c5_torn_tail_tolerance [(0 : Byte)] _ (by decide)).1 7⟩

/-- Claim C6: codec round trip — decoding the encoding of any record returns
the record with no bytes left over. -/
theorem c6_codec_round_trip :
    ∀ e : DBEntry, wfEntry e → decodeEntry (encodeEntry e) = .ok (e, []) := by
  intro e he
  have h := decodeEntry_encode e [] he
  simpa using h

/-- Witness for c6_codec_round_trip at a concrete map-insert record. -/
theorem c6_codec_round_trip_witness :
    wfEntry (DBEntry.HashMapEntry [(0 : Byte)] [(1 : Byte)] [(2 : Byte)]) ∧
    decodeEntry (encodeEntry (DBEntry.HashMapEntry [(0 : Byte)] [(1 : Byte)] [(2 : Byte)]))
      = .ok (DBEntry.HashMapEntry [(0 : Byte)] [(1 : Byte)] [(2 : Byte)], []) :=
  ⟨by decide, c6_codec_round_trip (DBEntry.HashMapEntry [(0 : Byte)] [(1 : Byte)] [(2 : Byte)])
    (by decide)⟩

/-- Claim C7: the first byte of every encoded record is its variant tag
(0, 1, 2, 3), and any other tag byte is a decode error. -/
theorem c7_tag_discrimination :
    (∀ i k v : Bytes, (encodeEntry (DBEntry.HashMapEntry i k v)).head? = some 0) ∧
    (∀ i k : Bytes, (encodeEntry (DBEntry.RemoveHashMapEntry i k)).head? = some 1) ∧
    (∀ i k : Bytes, (encodeEntry (DBEntry.HashSetEntry i k)).head? = some 2) ∧
    (∀ i k : Bytes, (encodeEntry (DBEntry.RemoveHashSetEntry i k)).head? = some 3) ∧
    (∀ (t : Byte) (rest : Bytes), t ≠ 0 → t ≠ 1 → t ≠ 2 → t ≠ 3 →
      decodeEntry (t :: rest) = .error (.badTag t)) :=
  ⟨fun _ _ _ => rfl, fun _ _ => rfl, fun _ _ => rfl, fun _ _ => rfl, decodeEntry_badTag⟩

/-- Witness for c7_tag_discrimination at the unknown tag 7. -/
theorem c7_tag_discrimination_witness :
    ((7 : Byte) ≠ 0 ∧ (7 : Byte) ≠ 1 ∧ (7 : Byte) ≠ 2 ∧ (7 : Byte) ≠ 3) ∧
    decodeEntry [(7 : Byte)] = .error (.badTag 7) :=
  ⟨by decide, c7_tag_discrimination.2.2.2.2 7 [] (by decide) (by decide) (by decide) (by decide)⟩

/-- Claim C8: collection id derivation.  The claim fails on the code: for the
name "m" (byte 109), the with-config constructor stores the raw length-prefixed
id, but the plain constructor bincode-re-serializes it, so the two handles use
different ids and the plain handle's id is not the specified big-endian
derivation. -/
theorem c8_collection_id_mismatch :
    hash_map_with_config_id [(109 : Byte)] = to_raw_id [(109 : Byte)] ∧
    hash_map_id [(109 : Byte)] ≠ to_raw_id [(109 : Byte)] ∧
    hash_map_id [(109 : Byte)] ≠ hash_map_with_config_id [(109 : Byte)] := by
  decide

/-- Claim C9: removing a key absent from the in-memory index returns None,
changes nothing and appends nothing. -/
theorem c9_remove_absent_noop :
    ∀ (id : Bytes) (st : MapIndex) (k : Bytes), st k = none →
      HashMap.remove id st k = none := by
  intro id st k h
  unfold HashMap.remove
  rw [h]

/-- Witness for c9_remove_absent_noop on the empty index. -/
theorem c9_remove_absent_witness :
    emptyMap [(1 : Byte)] = none ∧
    HashMap.remove [(0 : Byte)] emptyMap [(1 : Byte)] = none :=
  ⟨rfl, c9_remove_absent_noop [(0 : Byte)] emptyMap [(1 : Byte)] rfl⟩

/-- Claim C10: clear truncates its kept set at the first undecodable record:
whatever bytes follow an unknown tag — including well-formed records of other
collections — are dropped from the rewritten log. -/
theorem c10_clear_truncates_at_bad_record :
    ∀ (id : Bytes) (rs : List DBEntry) (t : Byte) (tail : Bytes),
      (∀ r ∈ rs, wfEntry r) → t ≠ 0 → t ≠ 1 → t ≠ 2 → t ≠ 3 →
      HashMap.clear id ((rs.map encodeEntry).flatten ++ t :: tail)
          = ((rs.filter (keepForMapClear id)).map encodeEntry).flatten ∧
      HashSet.clear id ((rs.map encodeEntry).flatten ++ t :: tail)
          = ((rs.filter (keepForSetClear id)).map encodeEntry).flatten := by
  intro id rs t tail hw h0 h1 h2 h3
  unfold HashMap.clear HashSet.clear
  rw [scan_entries_flatten_badTag rs t tail hw h0 h1 h2 h3]
  exact ⟨rfl, rfl⟩

/-- Witness for c10_clear_truncates_at_bad_record: a well-formed foreign
record sitting after the bad byte is dropped. -/
theorem c10_clear_truncates_witness :
    ((∀ r ∈ [DBEntry.HashMapEntry [(0 : Byte)] [(1 : Byte)] [(2 : Byte)]], wfEntry r) ∧
      (9 : Byte) ≠ 0 ∧ (9 : Byte) ≠ 1 ∧ (9 : Byte) ≠ 2 ∧ (9 : Byte) ≠ 3) ∧
    HashMap.clear [(5 : Byte)]
        ((([DBEntry.HashMapEntry [(0 : Byte)] [(1 : Byte)] [(2 : Byte)]].map
            encodeEntry).flatten)
          ++ (9 : Byte) :: encodeEntry (DBEntry.HashMapEntry [(6 : Byte)] [(7 : Byte)] [(8 : Byte)]))
      = (([DBEntry.HashMapEntry [(0 : Byte)] [(1 : Byte)] [(2 : Byte)]].filter
            (keepForMapClear [(5 : Byte)])).map encodeEntry).flatten :=
  ⟨⟨by decide, by decide, by decide, by decide, by decide⟩,
    (c10_clear_truncates_at_bad_record [(5 : Byte)] _ 9 _ (by decide)
      (by decide) (by decide) (by decide) (by decide)).1⟩

end RustmapDB
